import Mathlib

/-!
Shallow embedding of the core of scripts/minimap2.py from the
gromstole_dashboard repository: CIGAR diff extraction (encode_diffs),
read pairing (matchmaker), paired-read merging (check_miss,
merge_diffs), the main parse loop over pairs (parse_mm2) and mutation
frequency aggregation (get_frequencies).

Modelling conventions:
- Python exceptions and calls to sys.exit are modelled with an explicit
  error type Err carried in Except: any such event aborts the
  computation that contains it, exactly as an uncaught exception or a
  process exit kills the Python run.
- Machine integers are Nat or Int; Python float division in
  get_frequencies is modelled with exact rationals.
- The CIGAR string is represented already tokenized as a list of
  (length, operator) pairs, mirroring the result of re.findall on
  line 104 of the source.
- Python dictionaries are modelled as association lists in insertion
  order; the depth table (a dict with one key per reference position)
  is modelled as a total function from positions to counts.
- list(set(x)) in merge_diffs is modelled with List.dedup; the claims
  about merge_diffs concern membership only, which is independent of
  the arbitrary iteration order of a Python set.
-/

namespace Minimap2

/-- Abnormal terminations of the Python code: sys.exit on an
unrecognized CIGAR operator (encode_diffs, line 150-152 of the
source), a Python IndexError raised by indexing a list out of range,
and sys.exit on the unexpected case of check_miss (line 170-172). -/
inductive Err where
  | unrecognizedOp (op : Char)
  | indexError
  | unexpectedCase
deriving DecidableEq

/-- The loosely typed diff tuples of the source: a substitution tuple
(tilde, pos, nt), an insertion tuple (plus, pos, substring) and a
deletion tuple (minus, pos, length). Positions are 0-indexed
reference coordinates. -/
inductive Diff where
  | sub (pos : Nat) (nt : Char)
  | ins (pos : Nat) (s : List Char)
  | del (pos : Nat) (len : Nat)
deriving DecidableEq

/-- Second component of a diff tuple, x[1] in the source. -/
def Diff.pos : Diff → Nat
  | .sub p _ => p
  | .ins p _ => p
  | .del p _ => p

/-- One mapped SAM record as yielded by the minimap2 wrapper
generator: (qname, rpos, cigar, seq, qual), with rpos already
converted to a 0-indexed reference position (line 59) and the CIGAR
string already tokenized (line 104). -/
structure Row where
  qname : String
  rpos : Nat
  cigar : List (Nat × Char)
  seq : List Char
  qual : List Char
deriving DecidableEq

/-- The per-base loop over a mismatch run, lines 117-123 of the
source: for each base of the substring, decode its quality from the
parallel quality substring; a base in the accepted alphabet with
quality at least minq yields a substitution diff, any other base
yields a single-position missing range.  Indexing subqual[i] raises
IndexError when the quality substring is shorter than the sequence
substring, which aborts the record. -/
def xScan (alphabet : List Char) (minq : Int) :
    List Char → List Char → Nat → Except Err (List Diff × List (Nat × Nat))
  | [], _, _ => .ok ([], [])
  | _ :: _, [], _ => .error .indexError
  | nt :: nts, qc :: qcs, pos =>
    match xScan alphabet minq nts qcs (pos + 1) with
    | .error e => .error e
    | .ok (ds, ms) =>
      if nt ∈ alphabet ∧ ((qc.toNat : Int) - 33 ≥ minq) then
        .ok (Diff.sub pos nt :: ds, ms)
      else
        .ok (ds, (pos, pos + 1) :: ms)

/-- The main CIGAR walk of encode_diffs, lines 105-152 of the source.
State: left is the query cursor, rpos the reference cursor.  Returns
the final cursors together with the diff list and the missing ranges
produced by the loop, or the error that aborted the record.  The
operator dispatch is the if-elif chain of the source, with the final
else branch (print an error and sys.exit) as the unrecognized
operator error. -/
def encodeLoop (alphabet : List Char) (minq : Int) (seq qual : List Char) :
    List (Nat × Char) → Nat → Nat →
    Except Err (Nat × Nat × List Diff × List (Nat × Nat))
  | [], left, rpos => .ok (left, rpos, [], [])
  | (len, op) :: toks, left, rpos =>
    let substr := (seq.drop left).take len
    let subqual := (qual.drop left).take len
    match op with
    | 'X' =>
      if 'N' ∈ substr then
        match encodeLoop alphabet minq seq qual toks (left + len) (rpos + len) with
        | .error e => .error e
        | .ok (l, r, ds, ms) => .ok (l, r, ds, (rpos, rpos + len) :: ms)
      else
        match xScan alphabet minq substr subqual rpos with
        | .error e => .error e
        | .ok (xds, xms) =>
          match encodeLoop alphabet minq seq qual toks (left + len) (rpos + len) with
          | .error e => .error e
          | .ok (l, r, ds, ms) => .ok (l, r, xds ++ ds, xms ++ ms)
    | 'S' => encodeLoop alphabet minq seq qual toks (left + len) rpos
    | 'I' =>
      match encodeLoop alphabet minq seq qual toks (left + len) rpos with
      | .error e => .error e
      | .ok (l, r, ds, ms) => .ok (l, r, Diff.ins rpos substr :: ds, ms)
    | 'D' =>
      match encodeLoop alphabet minq seq qual toks left (rpos + len) with
      | .error e => .error e
      | .ok (l, r, ds, ms) => .ok (l, r, Diff.del rpos len :: ds, ms)
    | '=' => encodeLoop alphabet minq seq qual toks (left + len) (rpos + len)
    | 'H' => encodeLoop alphabet minq seq qual toks left rpos
    | _ => .error (.unrecognizedOp op)

/-- encode_diffs, lines 84-158 of the source, with the final query
cursor exposed as the first component of the result.  A leading
missing range [0, rpos) is emitted when the read does not start at
the reference start (lines 99-101), and a trailing missing range
[rpos, reflen) when the final reference cursor falls short of the
genome length (lines 154-156). -/
def encode_core (row : Row) (reflen : Nat) (alphabet : List Char) (minq : Int) :
    Except Err (Nat × String × List Diff × List (Nat × Nat)) :=
  let head := if 0 < row.rpos then [(0, row.rpos)] else []
  match encodeLoop alphabet minq row.seq row.qual row.cigar 0 row.rpos with
  | .error e => .error e
  | .ok (left, rpos, ds, ms) =>
    let tail := if rpos < reflen then [(rpos, reflen)] else []
    .ok (left, row.qname, ds, head ++ ms ++ tail)

/-- encode_diffs as called by the rest of the program: returns
(qname, diffs, missing).  The source defaults are reflen = 29903,
alphabet = ACGT, minq = 10. -/
def encode_diffs (row : Row) (reflen : Nat) (alphabet : List Char) (minq : Int) :
    Except Err (String × List Diff × List (Nat × Nat)) :=
  match encode_core row reflen alphabet minq with
  | .error e => .error e
  | .ok (_, q, ds, ms) => .ok (q, ds, ms)

/-- Total query length consumed by a token list, counting the
operators that advance the query cursor in a SAM CIGAR (M, =, X, S
and I). -/
def queryConsumed : List (Nat × Char) → Nat
  | [] => 0
  | (len, op) :: toks =>
    (if op ∈ (['M', '=', 'X', 'S', 'I'] : List Char) then len else 0) + queryConsumed toks

/-- check_miss, lines 161-173 of the source.  Restores a missing
boundary for a missing-range list shorter than two entries; the
genome length is the hard-coded constant 29903.  Indexing miss[0] of
an empty list raises IndexError; a singleton matching neither case
prints a message and exits. -/
def check_miss (miss : List (Nat × Nat)) : Except Err (List (Nat × Nat)) :=
  if miss.length < 2 then
    match miss with
    | [] => .error .indexError
    | m :: _ =>
      if m.1 = 0 then .ok (miss ++ [(29903, 29903)])
      else if m.2 = 29903 then .ok ((0, 0) :: miss)
      else .error .unexpectedCase
  else .ok miss

/-- merge_diffs, lines 176-213 of the source.  The covered span of
each mate is read off entries 0 and 1 of its (normalized) missing
list: lo is the second component of entry 0 and hi the first
component of entry 1.  Branches: identical missing lists return the
duplicated diffs; strictly non-overlapping spans return all diffs of
both mates; otherwise a diff held by only one mate is kept exactly
when its position lies within the closed covered-union bounds but not
within the closed covered-intersection bounds (line 211). -/
def merge_diffs (diff1 diff2 : List Diff) (miss1 miss2 : List (Nat × Nat)) :
    Except Err (List Diff × List (Nat × Nat)) :=
  match check_miss miss1 with
  | .error e => .error e
  | .ok m1 =>
    match check_miss miss2 with
    | .error e => .error e
    | .ok m2 =>
      match m1, m2 with
      | (_, lo1) :: (hi1, _) :: _, (_, lo2) :: (hi2, _) :: _ =>
        if m1 = m2 then
          .ok (diff1.filter (fun v => decide (v ∈ diff2)), [(lo1, hi1)])
        else if lo1 > hi2 ∨ lo2 > hi1 then
          .ok ((diff1 ++ diff2).dedup, [(lo1, hi1), (lo2, hi2)])
        else
          let covU := (min lo1 lo2, max hi1 hi2)
          let covI := (max lo1 lo2, min hi1 hi2)
          let returnDiffs := diff1.filter (fun v => decide (v ∈ diff2))
          let diffDiffs := ((diff1 ++ diff2).dedup).filter (fun v => decide (v ∉ returnDiffs))
          .ok (returnDiffs ++ diffDiffs.filter
              (fun d => decide ((covU.1 ≤ d.pos ∧ d.pos ≤ covU.2) ∧
                ¬ (covI.1 ≤ d.pos ∧ d.pos ≤ covI.2))),
            [covU])
      | _, _ => .error .indexError

/-- Lookup in the pending-read dictionary of matchmaker, keyed by
query name. -/
def lookupQ : List (String × Row) → String → Option Row
  | [], _ => none
  | (k, r) :: t, q => if k = q then some r else lookupQ t q

/-- Removal from the pending-read dictionary of matchmaker
(dict.pop). -/
def eraseQ : List (String × Row) → String → List (String × Row)
  | [], _ => []
  | (k, r) :: t, q => if k = q then t else (k, r) :: eraseQ t q

/-- The loop of matchmaker, lines 73-81 of the source: pop the
incoming qname from the cache; on a hit yield the ordered pair
(cached, current), otherwise cache the current row under its qname.
Rows still cached at end of stream are dropped. -/
def matchmakerAux : List Row → List (String × Row) → List (Row × Row)
  | [], _ => []
  | r :: rs, cache =>
    match lookupQ cache r.qname with
    | some old => (old, r) :: matchmakerAux rs (eraseQ cache r.qname)
    | none => matchmakerAux rs (cache ++ [(r.qname, r)])

/-- matchmaker, lines 63-81 of the source, on a finite record
stream. -/
def matchmaker (rows : List Row) : List (Row × Row) :=
  matchmakerAux rows []

/-- Reference description of the pairs produced for one fixed qname:
successive occurrences are paired off in arrival order and a trailing
unmatched occurrence is dropped. -/
def pairConsume : Option Row → List Row → List (Row × Row)
  | _, [] => []
  | none, r :: rs => pairConsume (some r) rs
  | some p, r :: rs => (p, r) :: pairConsume none rs

/-- Depth-table update of parse_mm2, lines 248-250 of the source: one
increment per coverage interval containing the position. -/
def addCoverage (cov : Nat → Nat) (ivs : List (Nat × Nat)) : Nat → Nat :=
  fun p => cov p + (ivs.filter (fun iv => decide (iv.1 ≤ p ∧ p < iv.2))).length

/-- Body of one iteration of the paired branch of parse_mm2, lines
234-237 of the source: encode both mates (with the source defaults
reflen = 29903, alphabet = ACGT, minq = 10) and merge them. -/
def processPair (p : Row × Row) : Except Err (List Diff × List (Nat × Nat)) :=
  match encode_diffs p.1 29903 ['A', 'C', 'G', 'T'] 10 with
  | .error e => .error e
  | .ok (_, diff1, miss1) =>
    match encode_diffs p.2 29903 ['A', 'C', 'G', 'T'] 10 with
    | .error e => .error e
    | .ok (_, diff2, miss2) => merge_diffs diff1 diff2 miss1 miss2

/-- The loop of parse_mm2 over matched pairs, lines 232-258 of the
source, threading the result list and the depth table.  Each diff is
paired with the label produced by the external mutation locator loc
(line 253); the optional early-stop cap is not modelled because the
program runs with no limit by default. -/
def processPairs (loc : Diff → String) :
    List (Row × Row) → (List (List (Diff × String)) × (Nat → Nat)) →
    Except Err (List (List (Diff × String)) × (Nat → Nat))
  | [], acc => .ok acc
  | p :: ps, acc =>
    match processPair p with
    | .error e => .error e
    | .ok (ds, ivs) =>
      processPairs loc ps (acc.1 ++ [ds.map (fun d => (d, loc d))], addCoverage acc.2 ivs)

/-- parse_mm2 in paired mode, lines 216-260 of the source: run
matchmaker over the record stream and fold the pair loop from an
empty result list and an all-zero depth table. -/
def parse_mm2 (loc : Diff → String) (rows : List Row) :
    Except Err (List (List (Diff × String)) × (Nat → Nat)) :=
  processPairs loc (matchmaker rows) ([], fun _ => 0)

/-- The canonical mutation key of get_frequencies, lines 279-282 of
the source: the event-type marker, the 1-indexed position, and the
new base for a substitution or a dot plus the payload for an
insertion or deletion. -/
def diffKey : Diff → String
  | .sub p nt => "~" ++ toString (p + 1) ++ String.mk [nt]
  | .ins p s => "+" ++ toString (p + 1) ++ "." ++ String.mk s
  | .del p n => "-" ++ toString (p + 1) ++ "." ++ toString n

/-- Nested counts dictionary of get_frequencies: position to key to
(label, accumulated count), in insertion order. -/
abbrev Counts := List (Nat × List (String × String × ℚ))

/-- Inner dictionary update of get_frequencies, lines 286-289: create
the key with count zero when absent, then add the increment to its
count; an existing entry keeps its original label. -/
def bumpKey (m : List (String × String × ℚ)) (key label : String) (add : ℚ) :
    List (String × String × ℚ) :=
  match m with
  | [] => [(key, label, add)]
  | (k, lab, c) :: t =>
    if k = key then (k, lab, c + add) :: t else (k, lab, c) :: bumpKey t key label add

/-- Outer dictionary update of get_frequencies, lines 284-289: create
the position entry when absent, then update its inner dictionary. -/
def updateCounts (counts : Counts) (pos : Nat) (key label : String) (add : ℚ) : Counts :=
  match counts with
  | [] => [(pos, [(key, label, add)])]
  | (p, m) :: t =>
    if p = pos then (p, bumpKey m key label add) :: t
    else (p, m) :: updateCounts t pos key label add

/-- One iteration of the diff loop of get_frequencies, lines 272-289
of the source: skip the diff when the depth at its position is zero,
otherwise accumulate 1 / depth under (position, canonical key). -/
def freqStep (cov : Nat → Nat) (counts : Counts) (dl : Diff × String) : Counts :=
  let denom := cov dl.1.pos
  if denom = 0 then counts
  else updateCounts counts dl.1.pos (diffKey dl.1) dl.2 (1 / (denom : ℚ))

/-- get_frequencies, lines 263-293 of the source, over the rows of
diffs (each diff zipped with its locator label) and the depth
table. -/
def get_frequencies (res : List (List (Diff × String))) (cov : Nat → Nat) : Counts :=
  res.foldl (fun counts row => row.foldl (freqStep cov) counts) []

/-- Count lookup in the inner dictionary, zero when absent. -/
def lookupKey (m : List (String × String × ℚ)) (key : String) : ℚ :=
  match m with
  | [] => 0
  | (k, _, c) :: t => if k = key then c else lookupKey t key

/-- Count lookup in the counts dictionary, zero when absent. -/
def lookupCount (counts : Counts) (pos : Nat) (key : String) : ℚ :=
  match counts with
  | [] => 0
  | (p, m) :: t => if p = pos then lookupKey m key else lookupCount t pos key

/-- check_miss is the identity on any missing list with at least two
entries. -/
theorem check_miss_two (x y : Nat × Nat) (t : List (Nat × Nat)) :
    check_miss (x :: y :: t) = .ok (x :: y :: t) := by
  have h : ¬ ((x :: y :: t).length < 2) := by
    simp only [List.length_cons]
    omega
  simp [check_miss, h]

/-- Claim C1 counterexample: a stream holding one record pair with an
unrecognized CIGAR operator followed by a perfectly well formed pair.
The run aborts with the unrecognized-operator exit instead of
skipping the bad record, exposing a skip counter and continuing with
the good pair. -/
theorem c1_counterexample :
    parse_mm2 (fun _ => "")
        [⟨"a", 0, [(3, 'P')], ['A', 'A', 'A'], ['I', 'I', 'I']⟩,
         ⟨"a", 0, [(3, 'P')], ['A', 'A', 'A'], ['I', 'I', 'I']⟩,
         ⟨"b", 0, [(3, '=')], ['A', 'A', 'A'], ['I', 'I', 'I']⟩,
         ⟨"b", 0, [(3, '=')], ['A', 'A', 'A'], ['I', 'I', 'I']⟩]
      = .error (.unrecognizedOp 'P') := rfl

/-- Helper for the amended claim C1: one failing pair anywhere in the
pair list aborts the whole fold, whatever comes after it. -/
theorem processPairs_error (loc : Diff → String) (p : Row × Row) (e : Err)
    (hp : processPair p = .error e) :
    ∀ (ps : List (Row × Row)), (∀ p2 ∈ ps, ∃ v, processPair p2 = .ok v) →
    ∀ (qs : List (Row × Row)) acc, processPairs loc (ps ++ p :: qs) acc = .error e := by
  intro ps
  induction ps with
  | nil =>
    intro _ qs acc
    simp [processPairs, hp]
  | cons p2 ps ih =>
    intro hok qs acc
    obtain ⟨v, hv⟩ := hok p2 (by simp)
    obtain ⟨ds, ivs⟩ := v
    simp only [List.cons_append, processPairs, hv]
    exact ih (fun p3 h3 => hok p3 (by simp [h3])) qs _

/-- Claim C1 (amended): an unrecognized CIGAR operator in
encode_diffs or an irreducible missing-range list in check_miss is
fatal to the entire run, not to the single record: parse_mm2 returns
the error, no later pair of the stream is processed, and no
skipped-record counter exists. -/
theorem c1_amended_error_fatal_to_run (loc : Diff → String) (rows : List Row)
    (ps qs : List (Row × Row)) (p : Row × Row) (e : Err)
    (hm : matchmaker rows = ps ++ p :: qs)
    (hp : processPair p = .error e)
    (hok : ∀ p2 ∈ ps, ∃ v, processPair p2 = .ok v) :
    parse_mm2 loc rows = .error e := by
  unfold parse_mm2
  rw [hm]
  exact processPairs_error loc p e hp ps hok qs _

/-- Witness for the amended claim C1 at a concrete two-record
stream. -/
theorem c1_amended_witness :
    parse_mm2 (fun _ => "")
        [⟨"a", 0, [(3, 'P')], ['A', 'A', 'A'], ['I', 'I', 'I']⟩,
         ⟨"a", 1, [(3, 'P')], ['A', 'A', 'A'], ['I', 'I', 'I']⟩]
      = .error (.unrecognizedOp 'P') :=
  c1_amended_error_fatal_to_run (fun _ => "") _ [] [] _ _ rfl rfl (by simp)

/-- Claim C2 counterexample: the CIGAR 3M over a 3-base query is well
formed over the operator set of the claim with consumed query length
equal to the sequence length, yet encode_diffs aborts on the operator
M instead of completing: the dispatch of the source handles only X,
S, I, D, the equality sign and H, so M falls into the
unrecognized-operator exit. -/
theorem c2_counterexample :
    queryConsumed [(3, 'M')] = 3 ∧
    (['A', 'A', 'A'] : List Char).length = 3 ∧
    'M' ∈ (['M', '=', 'X', 'S', 'I', 'D', 'H'] : List Char) ∧
    encode_diffs ⟨"q", 0, [(3, 'M')], ['A', 'A', 'A'], ['I', 'I', 'I']⟩
        29903 ['A', 'C', 'G', 'T'] 10
      = .error (.unrecognizedOp 'M') :=
  ⟨by decide, by decide, by decide, rfl⟩

/-- Claim C3 counterexample: two mates whose covered spans touch,
[0, 10) and [10, 29903), satisfy the condition hi1 le lo2 of the
claim, but merge_diffs takes the partial-overlap branch (the source
tests strict inequalities on line 196) and returns the single merged
coverage interval (0, 29903) instead of the two spans reported
separately. -/
theorem c3_counterexample :
    ((10 : Nat) ≤ 10) ∧
    merge_diffs [] [] [(0, 0), (10, 29903)] [(0, 10), (29903, 29903)]
      = .ok ([], [(0, 29903)]) ∧
    ([((0 : Nat), (29903 : Nat))] ≠ [(0, 10), (10, 29903)]) :=
  ⟨by decide, rfl, by decide⟩

/-- Claim C4 counterexample: spans [0, 10) and [5, 20) overlap
partially; the substitution at position 10 is held by mate 1 only and
its position lies inside the half-open covered union [0, 20) and
outside the half-open covered intersection [5, 10), so the claim
retains it; the code tests closed intervals (line 211), position 10
falls inside the closed intersection [5, 10], and the diff is
dropped. -/
theorem c4_counterexample :
    (Diff.sub 10 'T' ∈ [Diff.sub 10 'T']) ∧
    (Diff.sub 10 'T' ∉ ([] : List Diff)) ∧
    ((0 : Nat) ≤ 10 ∧ 10 < 20) ∧
    ¬ ((5 : Nat) ≤ 10 ∧ 10 < 10) ∧
    merge_diffs [Diff.sub 10 'T'] [] [(0, 0), (10, 29903)] [(0, 5), (20, 29903)]
      = .ok ([], [(0, 20)]) :=
  ⟨by decide, by decide, by decide, by decide, rfl⟩

/-- Claim C9: a mate whose alignment covers the whole genome produces
an empty missing-range list, and the boundary normalization of the
merger indexes entry 0 of that empty list: the pair fails with the
IndexError of the out-of-bounds access, which is neither a merged
result nor the ShapeError exit of check_miss. -/
theorem c9_empty_missing_index_error :
    encode_diffs ⟨"q", 0, [(29903, '=')], List.replicate 29903 'A', List.replicate 29903 'I'⟩
        29903 ['A', 'C', 'G', 'T'] 10 = .ok ("q", [], []) ∧
    check_miss [] = .error .indexError ∧
    processPair
        (⟨"q", 0, [(29903, '=')], List.replicate 29903 'A', List.replicate 29903 'I'⟩,
         ⟨"q", 0, [(29903, '=')], List.replicate 29903 'A', List.replicate 29903 'I'⟩)
      = .error .indexError ∧
    Err.indexError ≠ Err.unexpectedCase :=
  ⟨rfl, rfl, rfl, by decide⟩

/-- Claim C10: check_miss compares against the constant 29903, not
against the reflen parameter of encode_diffs: for any genome length g
other than 29903, the single trailing missing range (c, g) of a read
that starts at 0 and covers [0, c) matches neither restoration case
and takes the fatal unexpected-case exit. -/
theorem c10_check_miss_hardcoded_genome (g c : Nat)
    (hg : g ≠ 29903) (hc : 0 < c) (hcg : c < g) :
    check_miss [(c, g)] = .error .unexpectedCase ∧
    encode_diffs ⟨"q", 0, [(c, '=')], [], []⟩ g ['A', 'C', 'G', 'T'] 10
      = .ok ("q", [], [(c, g)]) := by
  constructor
  · simp [check_miss, hc.ne', hg]
  · simp [encode_diffs, encode_core, encodeLoop, hcg]

/-- Witness for claim C10 at genome length 1000 and covered span
[0, 100). -/
theorem c10_witness :
    check_miss [(100, 1000)] = .error .unexpectedCase ∧
    encode_diffs ⟨"q", 0, [(100, '=')], [], []⟩ 1000 ['A', 'C', 'G', 'T'] 10
      = .ok ("q", [], [(100, 1000)]) :=
  c10_check_miss_hardcoded_genome 1000 100 (by decide) (by decide) (by decide)

/-- Claim C3 (amended): the union branch fires only for strictly
disjoint covered spans, hi1 strictly below lo2 or hi2 strictly below
lo1; merge_diffs then returns the union of both diff sets and the two
coverage intervals separately.  Spans that merely touch are handled
by the partial-overlap branch instead. -/
theorem c3_amended_strict_disjoint_union (diff1 diff2 : List Diff)
    (a1 lo1 hi1 b1 a2 lo2 hi2 b2 : Nat) (t1 t2 : List (Nat × Nat))
    (h1 : lo1 ≤ hi1) (h2 : lo2 ≤ hi2) (hd : hi1 < lo2 ∨ hi2 < lo1) :
    ∃ ds, merge_diffs diff1 diff2 ((a1, lo1) :: (hi1, b1) :: t1) ((a2, lo2) :: (hi2, b2) :: t2)
        = .ok (ds, [(lo1, hi1), (lo2, hi2)]) ∧
      ∀ d, d ∈ ds ↔ (d ∈ diff1 ∨ d ∈ diff2) := by
  have hne : ((a1, lo1) :: (hi1, b1) :: t1 : List (Nat × Nat))
      ≠ (a2, lo2) :: (hi2, b2) :: t2 := by
    intro h
    rcases hd with hd | hd <;>
      (simp only [List.cons.injEq, Prod.mk.injEq] at h; omega)
  have hcond : lo1 > hi2 ∨ lo2 > hi1 := hd.elim (fun h => Or.inr h) (fun h => Or.inl h)
  refine ⟨(diff1 ++ diff2).dedup, ?_, ?_⟩
  · simp only [merge_diffs, check_miss_two]
    rw [if_neg hne, if_pos hcond]
  · intro d
    simp

/-- Witness for the amended claim C3: the disjoint scenario of the
specification, mate 1 covering [0, 10000) with one substitution and
mate 2 covering [20000, 29903) with none. -/
theorem c3_amended_witness :
    ∃ ds, merge_diffs [Diff.sub 100 'T'] [] [(0, 0), (10000, 29903)] [(0, 20000), (29903, 29903)]
        = .ok (ds, [(0, 10000), (20000, 29903)]) ∧
      ∀ d, d ∈ ds ↔ (d ∈ [Diff.sub 100 'T'] ∨ d ∈ ([] : List Diff)) :=
  c3_amended_strict_disjoint_union [Diff.sub 100 'T'] [] 0 0 10000 29903 0 20000 29903 29903
    [] [] (by decide) (by decide) (by decide)

/-- Claim C4 (amended): in the partial-overlap branch a diff present
in exactly one mate is retained if and only if its position lies
inside the closed covered-union interval and outside the closed
covered-intersection interval, both endpoints included (the source
compares with non-strict inequalities on both ends, line 211); diffs
present in both mates are always retained and the coverage is the
single covered-union interval. -/
theorem c4_amended_closed_interval_filter (diff1 diff2 : List Diff)
    (a1 lo1 hi1 b1 a2 lo2 hi2 b2 : Nat) (t1 t2 : List (Nat × Nat))
    (hne : ((a1, lo1) :: (hi1, b1) :: t1 : List (Nat × Nat)) ≠ (a2, lo2) :: (hi2, b2) :: t2)
    (hov : ¬ (lo1 > hi2 ∨ lo2 > hi1)) :
    ∃ ds, merge_diffs diff1 diff2 ((a1, lo1) :: (hi1, b1) :: t1) ((a2, lo2) :: (hi2, b2) :: t2)
        = .ok (ds, [(min lo1 lo2, max hi1 hi2)]) ∧
      ∀ d, d ∈ ds ↔ ((d ∈ diff1 ∧ d ∈ diff2) ∨
        ((d ∈ diff1 ∨ d ∈ diff2) ∧ ¬ (d ∈ diff1 ∧ d ∈ diff2) ∧
          (min lo1 lo2 ≤ d.pos ∧ d.pos ≤ max hi1 hi2) ∧
          ¬ (max lo1 lo2 ≤ d.pos ∧ d.pos ≤ min hi1 hi2))) := by
  simp only [merge_diffs, check_miss_two]
  rw [if_neg hne, if_neg hov]
  refine ⟨_, rfl, ?_⟩
  intro d
  simp only [List.mem_append, List.mem_filter, List.mem_dedup, decide_eq_true_eq,
    decide_not, Bool.not_eq_true', decide_eq_false_iff_not]
  constructor
  · rintro (⟨hd1, hd2⟩ | ⟨⟨hdu, hnotret⟩, hcond⟩)
    · exact Or.inl ⟨hd1, hd2⟩
    · exact Or.inr ⟨hdu, fun hboth => hnotret ⟨hboth.1, by simp [hboth.2]⟩, hcond.1, hcond.2⟩
  · rintro (⟨hd1, hd2⟩ | ⟨hdu, hnboth, hu, hni⟩)
    · exact Or.inl ⟨hd1, hd2⟩
    · exact Or.inr ⟨⟨hdu, fun hret => hnboth ⟨hret.1, by simpa using hret.2⟩⟩, hu, hni⟩

/-- Witness for the amended claim C4: spans [0, 10) and [5, 20); the
substitution at position 10 held only by mate 1 sits inside the
closed intersection [5, 10] and is rejected, so the merged diff set
is empty. -/
theorem c4_amended_witness :
    ∃ ds, merge_diffs [Diff.sub 10 'T'] [] [(0, 0), (10, 29903)] [(0, 5), (20, 29903)]
        = .ok (ds, [(min 0 5, max 10 20)]) ∧
      ∀ d, d ∈ ds ↔ ((d ∈ [Diff.sub 10 'T'] ∧ d ∈ ([] : List Diff)) ∨
        ((d ∈ [Diff.sub 10 'T'] ∨ d ∈ ([] : List Diff)) ∧
          ¬ (d ∈ [Diff.sub 10 'T'] ∧ d ∈ ([] : List Diff)) ∧
          (min 0 5 ≤ d.pos ∧ d.pos ≤ max 10 20) ∧
          ¬ (max 0 5 ≤ d.pos ∧ d.pos ≤ min 10 20))) :=
  c4_amended_closed_interval_filter [Diff.sub 10 'T'] [] 0 0 10 29903 0 5 20 29903 [] []
    (by decide) (by decide)

/-- Claim C5: whenever the two covered spans share lo and hi, the
merged diff set is exactly the intersection of the two diff sets and
the coverage is the single shared interval, through whichever branch
of merge_diffs applies; in particular merging a mate with an
identical copy of itself returns its own diff list unchanged. -/
theorem c5_identical_spans_intersection (diff1 diff2 : List Diff)
    (a1 b1 a2 b2 lo hi : Nat) (t1 t2 : List (Nat × Nat)) (hlh : lo ≤ hi) :
    (∃ ds, merge_diffs diff1 diff2 ((a1, lo) :: (hi, b1) :: t1) ((a2, lo) :: (hi, b2) :: t2)
        = .ok (ds, [(lo, hi)]) ∧ ∀ d, d ∈ ds ↔ (d ∈ diff1 ∧ d ∈ diff2)) ∧
    merge_diffs diff1 diff1 ((a1, lo) :: (hi, b1) :: t1) ((a1, lo) :: (hi, b1) :: t1)
      = .ok (diff1, [(lo, hi)]) := by
  have hself : ∀ (l : List Diff), l.filter (fun v => decide (v ∈ l)) = l := by
    intro l
    exact List.filter_eq_self.mpr (fun a ha => by simp [ha])
  constructor
  · by_cases heq : ((a1, lo) :: (hi, b1) :: t1 : List (Nat × Nat))
        = (a2, lo) :: (hi, b2) :: t2
    · simp only [merge_diffs, check_miss_two]
      rw [if_pos heq]
      refine ⟨_, rfl, ?_⟩
      intro d
      simp
    · have hov : ¬ (lo > hi ∨ lo > hi) := by omega
      simp only [merge_diffs, check_miss_two]
      rw [if_neg heq, if_neg hov]
      have hfil : ∀ (l : List Diff),
          l.filter (fun d => decide ((min lo lo ≤ d.pos ∧ d.pos ≤ max hi hi) ∧
            ¬ (max lo lo ≤ d.pos ∧ d.pos ≤ min hi hi))) = [] := by
        intro l
        apply List.filter_eq_nil_iff.mpr
        intro a _
        simp [Nat.min_self, Nat.max_self]
      rw [hfil, List.append_nil]
      refine ⟨_, by rw [Nat.min_self, Nat.max_self], ?_⟩
      intro d
      simp
  · simp only [merge_diffs, check_miss_two]
    simp [hself]

/-- Witness for claim C5: the identical-span scenario of the
specification (an uncorroborated deletion is rejected) together with
idempotence of the merge on that mate. -/
theorem c5_witness :
    (∃ ds, merge_diffs [Diff.del 500 3] [] [(0, 0), (29903, 29903)] [(0, 0), (29903, 29903)]
        = .ok (ds, [(0, 29903)]) ∧
      ∀ d, d ∈ ds ↔ (d ∈ [Diff.del 500 3] ∧ d ∈ ([] : List Diff))) ∧
    merge_diffs [Diff.del 500 3] [Diff.del 500 3] [(0, 0), (29903, 29903)] [(0, 0), (29903, 29903)]
      = .ok ([Diff.del 500 3], [(0, 29903)]) :=
  c5_identical_spans_intersection [Diff.del 500 3] [] 0 29903 0 29903 0 29903 [] [] (by decide)

/-- queryConsumed on a query-consuming head token. -/
theorem queryConsumed_cons_mem (op : Char) (len : Nat) (toks : List (Nat × Char))
    (h : op ∈ (['M', '=', 'X', 'S', 'I'] : List Char)) :
    queryConsumed ((len, op) :: toks) = len + queryConsumed toks := by
  simp [queryConsumed, h]

/-- queryConsumed on a head token that does not consume query. -/
theorem queryConsumed_cons_notmem (op : Char) (len : Nat) (toks : List (Nat × Char))
    (h : op ∉ (['M', '=', 'X', 'S', 'I'] : List Char)) :
    queryConsumed ((len, op) :: toks) = queryConsumed toks := by
  simp [queryConsumed, h]

/-- The mismatch-run scan never raises as long as the quality
substring is at least as long as the sequence substring. -/
theorem xScan_ok (alphabet : List Char) (minq : Int) :
    ∀ (s q : List Char) (pos : Nat), s.length ≤ q.length →
    ∃ out, xScan alphabet minq s q pos = .ok out := by
  intro s
  induction s with
  | nil =>
    intro q pos _
    exact ⟨([], []), by cases q <;> rfl⟩
  | cons nt nts ih =>
    intro q pos hlen
    cases q with
    | nil =>
      exfalso
      simp only [List.length_cons, List.length_nil] at hlen
      omega
    | cons qc qcs =>
      obtain ⟨out, hout⟩ := ih qcs (pos + 1) (by simpa using hlen)
      obtain ⟨ds, ms⟩ := out
      by_cases hc : nt ∈ alphabet ∧ ((qc.toNat : Int) - 33 ≥ minq)
      · exact ⟨(Diff.sub pos nt :: ds, ms), by simp [xScan, hout, hc]⟩
      · exact ⟨(ds, (pos, pos + 1) :: ms), by simp [xScan, hout, hc]⟩

/-- The CIGAR walk completes for every token list over the six
handled operators when the quality string is at least as long as the
sequence, and its final query cursor advances by exactly the consumed
query length of the token list. -/
theorem encodeLoop_ok (alphabet : List Char) (minq : Int) (seq qual : List Char)
    (hq : seq.length ≤ qual.length) :
    ∀ (toks : List (Nat × Char)),
      (∀ t ∈ toks, t.2 ∈ (['=', 'X', 'S', 'I', 'D', 'H'] : List Char)) →
      ∀ left rpos, ∃ r ds ms,
        encodeLoop alphabet minq seq qual toks left rpos
          = .ok (left + queryConsumed toks, r, ds, ms) := by
  intro toks
  induction toks with
  | nil =>
    intro _ left rpos
    exact ⟨rpos, [], [], by simp [encodeLoop, queryConsumed]⟩
  | cons t toks ih =>
    obtain ⟨len, op⟩ := t
    intro hops left rpos
    have hop : op ∈ (['=', 'X', 'S', 'I', 'D', 'H'] : List Char) := hops (len, op) (by simp)
    have hops2 : ∀ t ∈ toks, t.2 ∈ (['=', 'X', 'S', 'I', 'D', 'H'] : List Char) :=
      fun t ht => hops t (by simp [ht])
    simp only [List.mem_cons, List.not_mem_nil, or_false] at hop
    rcases hop with rfl | rfl | rfl | rfl | rfl | rfl
    · obtain ⟨r, ds, ms, hrec⟩ := ih hops2 (left + len) (rpos + len)
      exact ⟨r, ds, ms,
        by simp [encodeLoop, hrec, queryConsumed_cons_mem '=' len toks (by decide), Nat.add_assoc]⟩
    · by_cases hN : 'N' ∈ (seq.drop left).take len
      · obtain ⟨r, ds, ms, hrec⟩ := ih hops2 (left + len) (rpos + len)
        exact ⟨r, ds, (rpos, rpos + len) :: ms,
          by simp [encodeLoop, hN, hrec, queryConsumed_cons_mem 'X' len toks (by decide), Nat.add_assoc]⟩
      · have hsub : ((seq.drop left).take len).length ≤ ((qual.drop left).take len).length := by
          simp only [List.length_take, List.length_drop]
          omega
        obtain ⟨xout, hx⟩ := xScan_ok alphabet minq _ _ rpos hsub
        obtain ⟨xds, xms⟩ := xout
        obtain ⟨r, ds, ms, hrec⟩ := ih hops2 (left + len) (rpos + len)
        exact ⟨r, xds ++ ds, xms ++ ms,
          by simp [encodeLoop, hN, hx, hrec, queryConsumed_cons_mem 'X' len toks (by decide), Nat.add_assoc]⟩
    · obtain ⟨r, ds, ms, hrec⟩ := ih hops2 (left + len) rpos
      exact ⟨r, ds, ms,
        by simp [encodeLoop, hrec, queryConsumed_cons_mem 'S' len toks (by decide), Nat.add_assoc]⟩
    · obtain ⟨r, ds, ms, hrec⟩ := ih hops2 (left + len) rpos
      exact ⟨r, Diff.ins rpos ((seq.drop left).take len) :: ds, ms,
        by simp [encodeLoop, hrec, queryConsumed_cons_mem 'I' len toks (by decide), Nat.add_assoc]⟩
    · obtain ⟨r, ds, ms, hrec⟩ := ih hops2 left (rpos + len)
      exact ⟨r, Diff.del rpos len :: ds, ms,
        by simp [encodeLoop, hrec, queryConsumed_cons_notmem 'D' len toks (by decide)]⟩
    · obtain ⟨r, ds, ms, hrec⟩ := ih hops2 left rpos
      exact ⟨r, ds, ms,
        by simp [encodeLoop, hrec, queryConsumed_cons_notmem 'H' len toks (by decide)]⟩

/-- Claim C2 (amended): for every record whose quality string is at
least as long as its sequence and whose CIGAR tokens range over the
operators actually handled by the dispatch, the equality sign, X, S,
I, D and H, with the query-consuming lengths summing to the sequence
length, encode_diffs completes normally and the final query cursor
equals the sequence length.  The operator M of the claim is excluded:
the dispatch treats it as unrecognized and aborts (see the
counterexample). -/
theorem c2_amended_wellformed_cursor (row : Row) (reflen : Nat) (alphabet : List Char)
    (minq : Int)
    (hops : ∀ t ∈ row.cigar, t.2 ∈ (['=', 'X', 'S', 'I', 'D', 'H'] : List Char))
    (hsum : queryConsumed row.cigar = row.seq.length)
    (hq : row.seq.length ≤ row.qual.length) :
    ∃ rest, encode_core row reflen alphabet minq = .ok (row.seq.length, rest) := by
  obtain ⟨r, ds, ms, h⟩ :=
    encodeLoop_ok alphabet minq row.seq row.qual hq row.cigar hops 0 row.rpos
  exact ⟨(row.qname, ds,
      (if 0 < row.rpos then [(0, row.rpos)] else []) ++ ms ++
        (if r < reflen then [(r, reflen)] else [])),
    by simp [encode_core, h, hsum]⟩

/-- Witness for the amended claim C2: a soft clip of two bases
followed by three exact matches over a five-base read ends with the
query cursor at five. -/
theorem c2_amended_witness :
    ∃ rest, encode_core ⟨"q", 0, [(2, 'S'), (3, '=')], ['A', 'C', 'G', 'T', 'A'],
        ['I', 'I', 'I', 'I', 'I']⟩ 29903 ['A', 'C', 'G', 'T'] 10 = .ok (5, rest) :=
  c2_amended_wellformed_cursor ⟨"q", 0, [(2, 'S'), (3, '=')], ['A', 'C', 'G', 'T', 'A'],
    ['I', 'I', 'I', 'I', 'I']⟩ 29903 ['A', 'C', 'G', 'T'] 10 (by decide) (by decide) (by decide)

/-- Positions reached by updateCounts: the updated position or one
already present. -/
theorem updateCounts_mem_pos (counts : Counts) (pos : Nat) (key label : String) (add : ℚ) :
    ∀ p m, (p, m) ∈ updateCounts counts pos key label add →
      p = pos ∨ ∃ m2, (p, m2) ∈ counts := by
  induction counts with
  | nil =>
    intro p m h
    simp only [updateCounts, List.mem_singleton] at h
    exact Or.inl (by cases h; rfl)
  | cons hd t ih =>
    obtain ⟨p0, m0⟩ := hd
    intro p m h
    simp only [updateCounts] at h
    by_cases hp : p0 = pos
    · rw [if_pos hp] at h
      rcases List.mem_cons.mp h with h | h
      · exact Or.inl (by cases h; exact hp)
      · exact Or.inr ⟨m, List.mem_cons_of_mem _ h⟩
    · rw [if_neg hp] at h
      rcases List.mem_cons.mp h with h | h
      · cases h
        exact Or.inr ⟨m0, List.mem_cons_self _ _⟩
      · rcases ih p m h with h1 | ⟨m2, h2⟩
        · exact Or.inl h1
        · exact Or.inr ⟨m2, List.mem_cons_of_mem _ h2⟩

/-- One frequency step preserves the invariant that every recorded
position has nonzero depth. -/
theorem freqStep_posOK (cov : Nat → Nat) (counts : Counts) (dl : Diff × String)
    (h : ∀ p m, (p, m) ∈ counts → cov p ≠ 0) :
    ∀ p m, (p, m) ∈ freqStep cov counts dl → cov p ≠ 0 := by
  intro p m hm
  simp only [freqStep] at hm
  by_cases hz : cov dl.1.pos = 0
  · rw [if_pos hz] at hm
    exact h p m hm
  · rw [if_neg hz] at hm
    rcases updateCounts_mem_pos counts dl.1.pos (diffKey dl.1) dl.2 _ p m hm with h1 | ⟨m2, h2⟩
    · exact h1 ▸ hz
    · exact h p m2 h2

/-- The inner diff fold preserves the nonzero-depth invariant. -/
theorem foldl_freqStep_posOK (cov : Nat → Nat) :
    ∀ (row : List (Diff × String)) (counts : Counts),
      (∀ p m, (p, m) ∈ counts → cov p ≠ 0) →
      ∀ p m, (p, m) ∈ row.foldl (freqStep cov) counts → cov p ≠ 0 := by
  intro row
  induction row with
  | nil =>
    intro counts h p m hm
    rw [List.foldl_nil] at hm
    exact h p m hm
  | cons dl row ih =>
    intro counts h p m hm
    rw [List.foldl_cons] at hm
    exact ih (freqStep cov counts dl) (freqStep_posOK cov counts dl h) p m hm

/-- The outer row fold preserves the nonzero-depth invariant. -/
theorem foldl2_posOK (cov : Nat → Nat) :
    ∀ (res : List (List (Diff × String))) (counts : Counts),
      (∀ p m, (p, m) ∈ counts → cov p ≠ 0) →
      ∀ p m, (p, m) ∈ res.foldl (fun c row => row.foldl (freqStep cov) c) counts → cov p ≠ 0 := by
  intro res
  induction res with
  | nil =>
    intro counts h p m hm
    rw [List.foldl_nil] at hm
    exact h p m hm
  | cons row res ih =>
    intro counts h p m hm
    rw [List.foldl_cons] at hm
    exact ih _ (foldl_freqStep_posOK cov row counts h) p m hm

/-- bumpKey always leaves its key present. -/
theorem bumpKey_self :
    ∀ (m : List (String × String × ℚ)) (key label : String) (add : ℚ),
    ∃ lab c, (key, lab, c) ∈ bumpKey m key label add := by
  intro m
  induction m with
  | nil =>
    intro key label add
    exact ⟨label, add, by simp [bumpKey]⟩
  | cons hd t ih =>
    obtain ⟨k0, l0, c0⟩ := hd
    intro key label add
    by_cases hk : k0 = key
    · subst hk
      exact ⟨l0, c0 + add, by simp [bumpKey]⟩
    · obtain ⟨lab, c, h⟩ := ih key label add
      exact ⟨lab, c, by simp [bumpKey, hk, h]⟩

/-- bumpKey never removes a key that was present. -/
theorem bumpKey_mono :
    ∀ (m : List (String × String × ℚ)) (k0 l0 : String) (a0 : ℚ) (key lab : String) (c : ℚ),
    (key, lab, c) ∈ m → ∃ lab2 c2, (key, lab2, c2) ∈ bumpKey m k0 l0 a0 := by
  intro m
  induction m with
  | nil =>
    intro k0 l0 a0 key lab c h
    simp at h
  | cons hd t ih =>
    obtain ⟨k1, l1, c1⟩ := hd
    intro k0 l0 a0 key lab c h
    by_cases hk : k1 = k0
    · rcases List.mem_cons.mp h with h | h
      · cases h
        exact ⟨l1, c1 + a0, by simp [bumpKey, hk]⟩
      · exact ⟨lab, c, by simp [bumpKey, hk, h]⟩
    · rcases List.mem_cons.mp h with h | h
      · cases h
        exact ⟨l1, c1, by simp [bumpKey, hk]⟩
      · obtain ⟨lab2, c2, h2⟩ := ih k0 l0 a0 key lab c h
        exact ⟨lab2, c2, by simp [bumpKey, hk, h2]⟩

/-- updateCounts records its key at its position. -/
theorem updateCounts_self :
    ∀ (counts : Counts) (pos : Nat) (key label : String) (add : ℚ),
    ∃ m lab c, (pos, m) ∈ updateCounts counts pos key label add ∧ (key, lab, c) ∈ m := by
  intro counts
  induction counts with
  | nil =>
    intro pos key label add
    exact ⟨[(key, label, add)], label, add, by simp [updateCounts], by simp⟩
  | cons hd t ih =>
    obtain ⟨p0, m0⟩ := hd
    intro pos key label add
    by_cases hp : p0 = pos
    · obtain ⟨lab, c, hm⟩ := bumpKey_self m0 key label add
      exact ⟨bumpKey m0 key label add, lab, c, by simp [updateCounts, hp], hm⟩
    · obtain ⟨m, lab, c, h1, h2⟩ := ih pos key label add
      exact ⟨m, lab, c, by simp [updateCounts, hp, h1], h2⟩

/-- updateCounts never removes a (position, key) pair that was
present. -/
theorem updateCounts_mono :
    ∀ (counts : Counts) (pos0 : Nat) (key0 lab0 : String) (add0 : ℚ) (pos : Nat) (key : String),
    (∃ m lab c, (pos, m) ∈ counts ∧ (key, lab, c) ∈ m) →
    ∃ m lab c, (pos, m) ∈ updateCounts counts pos0 key0 lab0 add0 ∧ (key, lab, c) ∈ m := by
  intro counts
  induction counts with
  | nil =>
    intro pos0 key0 lab0 add0 pos key h
    obtain ⟨m, lab, c, h1, _⟩ := h
    simp at h1
  | cons hd t ih =>
    obtain ⟨p1, m1⟩ := hd
    intro pos0 key0 lab0 add0 pos key h
    obtain ⟨m, lab, c, h1, h2⟩ := h
    by_cases hp : p1 = pos0
    · rcases List.mem_cons.mp h1 with h1 | h1
      · injection h1 with ha hb
        subst hb
        obtain ⟨lab2, c2, hbk⟩ := bumpKey_mono m key0 lab0 add0 key lab c h2
        exact ⟨bumpKey m key0 lab0 add0, lab2, c2, by simp [updateCounts, hp, ha], hbk⟩
      · exact ⟨m, lab, c, by simp [updateCounts, hp, h1], h2⟩
    · rcases List.mem_cons.mp h1 with h1 | h1
      · injection h1 with ha hb
        subst hb
        exact ⟨m, lab, c, by simp [updateCounts, hp, ha], h2⟩
      · obtain ⟨m2, lab2, c2, hh1, hh2⟩ := ih pos0 key0 lab0 add0 pos key ⟨m, lab, c, h1, h2⟩
        refine ⟨m2, lab2, c2, ?_, hh2⟩
        simp only [updateCounts]
        rw [if_neg hp]
        exact List.mem_cons_of_mem _ hh1

/-- A processed diff at a nonzero-depth position is recorded by its
frequency step. -/
theorem freqStep_self (cov : Nat → Nat) (counts : Counts) (dl : Diff × String)
    (hz : cov dl.1.pos ≠ 0) :
    ∃ m lab c, (dl.1.pos, m) ∈ freqStep cov counts dl ∧ (diffKey dl.1, lab, c) ∈ m := by
  simp only [freqStep]
  rw [if_neg hz]
  exact updateCounts_self counts dl.1.pos (diffKey dl.1) dl.2 _

/-- A frequency step never removes a recorded (position, key)
pair. -/
theorem freqStep_mono (cov : Nat → Nat) (counts : Counts) (dl : Diff × String)
    (pos : Nat) (key : String)
    (h : ∃ m lab c, (pos, m) ∈ counts ∧ (key, lab, c) ∈ m) :
    ∃ m lab c, (pos, m) ∈ freqStep cov counts dl ∧ (key, lab, c) ∈ m := by
  simp only [freqStep]
  by_cases hz : cov dl.1.pos = 0
  · rw [if_pos hz]
    exact h
  · rw [if_neg hz]
    exact updateCounts_mono counts dl.1.pos (diffKey dl.1) dl.2 _ pos key h

/-- The inner fold never removes a recorded (position, key) pair. -/
theorem foldl_freqStep_mono (cov : Nat → Nat) :
    ∀ (row : List (Diff × String)) (counts : Counts) (pos : Nat) (key : String),
    (∃ m lab c, (pos, m) ∈ counts ∧ (key, lab, c) ∈ m) →
    ∃ m lab c, (pos, m) ∈ row.foldl (freqStep cov) counts ∧ (key, lab, c) ∈ m := by
  intro row
  induction row with
  | nil =>
    intro counts pos key h
    rw [List.foldl_nil]
    exact h
  | cons dl row ih =>
    intro counts pos key h
    rw [List.foldl_cons]
    exact ih _ pos key (freqStep_mono cov counts dl pos key h)

/-- A diff of the row with nonzero depth is recorded by the inner
fold. -/
theorem foldl_freqStep_self (cov : Nat → Nat) :
    ∀ (row : List (Diff × String)) (counts : Counts) (d : Diff) (lab : String),
    (d, lab) ∈ row → cov d.pos ≠ 0 →
    ∃ m lab2 c, (d.pos, m) ∈ row.foldl (freqStep cov) counts ∧ (diffKey d, lab2, c) ∈ m := by
  intro row
  induction row with
  | nil =>
    intro counts d lab h
    simp at h
  | cons dl row ih =>
    intro counts d lab hmem hz
    rcases List.mem_cons.mp hmem with h | h
    · cases h
      rw [List.foldl_cons]
      exact foldl_freqStep_mono cov row _ d.pos (diffKey d) (freqStep_self cov counts (d, lab) hz)
    · rw [List.foldl_cons]
      exact ih _ d lab h hz

/-- The outer fold never removes a recorded (position, key) pair. -/
theorem foldl2_mono (cov : Nat → Nat) :
    ∀ (res : List (List (Diff × String))) (counts : Counts) (pos : Nat) (key : String),
    (∃ m lab c, (pos, m) ∈ counts ∧ (key, lab, c) ∈ m) →
    ∃ m lab c, (pos, m) ∈ res.foldl (fun c2 r => r.foldl (freqStep cov) c2) counts ∧
      (key, lab, c) ∈ m := by
  intro res
  induction res with
  | nil =>
    intro counts pos key h
    rw [List.foldl_nil]
    exact h
  | cons r res ih =>
    intro counts pos key h
    rw [List.foldl_cons]
    exact ih _ pos key (foldl_freqStep_mono cov r counts pos key h)

/-- A diff of any processed row with nonzero depth is recorded by the
outer fold. -/
theorem foldl2_self (cov : Nat → Nat) :
    ∀ (res : List (List (Diff × String))) (counts : Counts) (row : List (Diff × String))
      (d : Diff) (lab : String), row ∈ res → (d, lab) ∈ row → cov d.pos ≠ 0 →
    ∃ m lab2 c, (d.pos, m) ∈ res.foldl (fun c2 r => r.foldl (freqStep cov) c2) counts ∧
      (diffKey d, lab2, c) ∈ m := by
  intro res
  induction res with
  | nil =>
    intro counts row d lab h
    simp at h
  | cons r res ih =>
    intro counts row d lab hrow hd hz
    rcases List.mem_cons.mp hrow with h | h
    · cases h
      rw [List.foldl_cons]
      exact foldl2_mono cov res _ d.pos (diffKey d) (foldl_freqStep_self cov r counts d lab hd hz)
    · rw [List.foldl_cons]
      exact ih _ row d lab h hd hz

/-- Claim C6: a retained diff whose position has accumulated depth
zero is silently excluded from the frequency output, however many
times it was retained, and a diff at a nonzero-depth position is not
excluded by this rule: every recorded position has nonzero depth, and
every processed diff with nonzero depth appears under its canonical
key. -/
theorem c6_zero_depth_excluded (res : List (List (Diff × String))) (cov : Nat → Nat) :
    (∀ p m, (p, m) ∈ get_frequencies res cov → cov p ≠ 0) ∧
    (∀ row ∈ res, ∀ d lab, (d, lab) ∈ row → cov d.pos ≠ 0 →
      ∃ m lab2 c, (d.pos, m) ∈ get_frequencies res cov ∧ (diffKey d, lab2, c) ∈ m) := by
  constructor
  · intro p m hm
    exact foldl2_posOK cov res [] (by intro p2 m2 h2; simp at h2) p m hm
  · intro row hrow d lab hd hz
    exact foldl2_self cov res [] row d lab hrow hd hz

/-- Witness for claim C6: one retained substitution at position 0
with depth one appears in the output, and no zero-depth position is
recorded. -/
theorem c6_witness :
    ∃ m lab2 c, ((Diff.sub 0 'T').pos, m) ∈
        get_frequencies [[(Diff.sub 0 'T', "lbl")]] (fun _ => 1) ∧
      (diffKey (Diff.sub 0 'T'), lab2, c) ∈ m :=
  (c6_zero_depth_excluded [[(Diff.sub 0 'T', "lbl")]] (fun _ => 1)).2
    [(Diff.sub 0 'T', "lbl")] (by simp) (Diff.sub 0 'T') "lbl" (by simp) (by simp)

/-- lookupKey after bumpKey: the bumped key gains exactly the
increment. -/
theorem lookupKey_bumpKey :
    ∀ (m : List (String × String × ℚ)) (key label : String) (add : ℚ),
    lookupKey (bumpKey m key label add) key = lookupKey m key + add := by
  intro m
  induction m with
  | nil =>
    intro key label add
    simp [bumpKey, lookupKey]
  | cons hd t ih =>
    obtain ⟨k0, l0, c0⟩ := hd
    intro key label add
    by_cases hk : k0 = key
    · simp [bumpKey, lookupKey, hk]
    · simp [bumpKey, lookupKey, hk, ih]

/-- lookupCount after updateCounts: the updated (position, key) cell
gains exactly the increment. -/
theorem lookupCount_updateCounts :
    ∀ (counts : Counts) (pos : Nat) (key label : String) (add : ℚ),
    lookupCount (updateCounts counts pos key label add) pos key
      = lookupCount counts pos key + add := by
  intro counts
  induction counts with
  | nil =>
    intro pos key label add
    simp [updateCounts, lookupCount, lookupKey]
  | cons hd t ih =>
    obtain ⟨p0, m0⟩ := hd
    intro pos key label add
    by_cases hp : p0 = pos
    · simp [updateCounts, lookupCount, hp, lookupKey_bumpKey]
    · simp [updateCounts, lookupCount, hp, ih]

/-- Claim C7: each retained diff at a position of nonzero depth d
adds exactly 1 / d to the running sum keyed by its position and
canonical key; the canonical key is the event marker, the 1-indexed
position, and the new base for a substitution or a dot plus the
payload for an insertion or deletion; and the frequency scenario of
the specification sums two substitution contributions at depth ten to
exactly one fifth. -/
theorem c7_frequency_accumulation :
    (∀ (cov : Nat → Nat) (counts : Counts) (d : Diff) (lab : String),
      cov d.pos ≠ 0 →
      lookupCount (freqStep cov counts (d, lab)) d.pos (diffKey d)
        = lookupCount counts d.pos (diffKey d) + 1 / ((cov d.pos : ℚ))) ∧
    (∀ p nt, diffKey (Diff.sub p nt) = "~" ++ toString (p + 1) ++ String.mk [nt]) ∧
    (∀ p s, diffKey (Diff.ins p s) = "+" ++ toString (p + 1) ++ "." ++ String.mk s) ∧
    (∀ p n, diffKey (Diff.del p n) = "-" ++ toString (p + 1) ++ "." ++ toString n) ∧
    lookupCount (get_frequencies [[(Diff.sub 100 'T', "lbl")], [(Diff.sub 100 'T', "lbl")]]
        (fun p => if p = 100 then 10 else 0)) 100 "~101T" = 1 / 5 := by
  refine ⟨?_, fun p nt => rfl, fun p s => rfl, fun p n => rfl, ?_⟩
  · intro cov counts d lab hz
    simp only [freqStep]
    rw [if_neg hz]
    exact lookupCount_updateCounts counts d.pos (diffKey d) lab _
  · have hkey : ("~" ++ toString 101 ++ String.mk ['T'] : String) = "~101T" := rfl
    simp only [get_frequencies, List.foldl_cons, List.foldl_nil, freqStep, updateCounts,
      bumpKey, lookupCount, lookupKey, diffKey, Diff.pos, hkey]
    norm_num

/-- Witness for claim C7: one frequency step at depth ten adds
exactly one tenth to the empty table. -/
theorem c7_witness :
    lookupCount (freqStep (fun p => if p = 100 then 10 else 0) [] (Diff.sub 100 'T', "lbl"))
        (Diff.sub 100 'T').pos (diffKey (Diff.sub 100 'T'))
      = lookupCount [] (Diff.sub 100 'T').pos (diffKey (Diff.sub 100 'T'))
        + 1 / ((((fun p => if p = 100 then 10 else 0) (Diff.sub 100 'T').pos : Nat) : ℚ)) :=
  c7_frequency_accumulation.1 (fun p => if p = 100 then 10 else 0) [] (Diff.sub 100 'T') "lbl"
    (by decide)

/-- Well-formedness of the pending cache: distinct keys, and every
cached row is stored under its own query name. -/
def cacheInv (cache : List (String × Row)) : Prop :=
  (cache.map Prod.fst).Nodup ∧ ∀ kr ∈ cache, (kr.2).qname = kr.1

/-- A lookup misses exactly when the key is absent. -/
theorem lookupQ_eq_none (c : List (String × Row)) (q : String) :
    lookupQ c q = none ↔ q ∉ c.map Prod.fst := by
  induction c with
  | nil => simp [lookupQ]
  | cons hd t ih =>
    obtain ⟨k, r⟩ := hd
    by_cases h : k = q
    · simp [lookupQ, h]
    · have h2 : ¬ (q = k) := fun hq => h hq.symm
      simp [lookupQ, h, ih, h2]

/-- A successful lookup exhibits a cache entry. -/
theorem lookupQ_mem (c : List (String × Row)) (q : String) (r : Row)
    (h : lookupQ c q = some r) : (q, r) ∈ c := by
  induction c with
  | nil => simp [lookupQ] at h
  | cons hd t ih =>
    obtain ⟨k, r0⟩ := hd
    by_cases hk : k = q
    · simp only [lookupQ, if_pos hk] at h
      injection h with h2
      subst hk
      subst h2
      exact List.mem_cons_self _ _
    · simp only [lookupQ, if_neg hk] at h
      exact List.mem_cons_of_mem _ (ih h)

/-- Erasure only drops entries. -/
theorem eraseQ_subset (c : List (String × Row)) (q : String) :
    ∀ kr ∈ eraseQ c q, kr ∈ c := by
  induction c with
  | nil => simp [eraseQ]
  | cons hd t ih =>
    obtain ⟨k, r⟩ := hd
    intro kr hkr
    by_cases hk : k = q
    · simp only [eraseQ, if_pos hk] at hkr
      exact List.mem_cons_of_mem _ hkr
    · simp only [eraseQ, if_neg hk] at hkr
      rcases List.mem_cons.mp hkr with h | h
      · exact h ▸ List.mem_cons_self _ _
      · exact List.mem_cons_of_mem _ (ih kr h)

/-- The key list after erasure is a sublist of the original keys. -/
theorem eraseQ_keys_sublist (c : List (String × Row)) (q : String) :
    ((eraseQ c q).map Prod.fst).Sublist (c.map Prod.fst) := by
  induction c with
  | nil => simp [eraseQ]
  | cons hd t ih =>
    obtain ⟨k, r⟩ := hd
    by_cases hk : k = q
    · simp only [eraseQ, if_pos hk, List.map_cons]
      exact List.sublist_cons_self _ _
    · simp only [eraseQ, if_neg hk, List.map_cons]
      exact ih.cons₂ _

/-- With distinct keys, a key just erased is no longer found. -/
theorem lookupQ_eraseQ_self (c : List (String × Row)) (q : String)
    (h : (c.map Prod.fst).Nodup) : lookupQ (eraseQ c q) q = none := by
  induction c with
  | nil => simp [eraseQ, lookupQ]
  | cons hd t ih =>
    obtain ⟨k, r⟩ := hd
    simp only [List.map_cons, List.nodup_cons] at h
    by_cases hk : k = q
    · subst hk
      simp only [eraseQ, if_pos rfl]
      exact (lookupQ_eq_none t k).mpr h.1
    · simp only [eraseQ, if_neg hk, lookupQ, if_neg hk]
      exact ih h.2

/-- Erasing one key leaves lookups of other keys unchanged. -/
theorem lookupQ_eraseQ_ne (c : List (String × Row)) (k q : String) (h : k ≠ q) :
    lookupQ (eraseQ c k) q = lookupQ c q := by
  induction c with
  | nil => rfl
  | cons hd t ih =>
    obtain ⟨k0, r0⟩ := hd
    by_cases hk : k0 = k
    · subst hk
      have hq : ¬ (k0 = q) := h
      simp [eraseQ, lookupQ, hq]
    · have hqk : ¬ (q = k) := fun e => h e.symm
      by_cases hq : k0 = q
      · simp [eraseQ, lookupQ, hk, hq, hqk]
      · simp [eraseQ, lookupQ, hk, hq, hqk, ih]

/-- Appending an entry with a fresh key leaves other lookups
unchanged. -/
theorem lookupQ_append_ne (c : List (String × Row)) (k q : String) (r : Row) (h : k ≠ q) :
    lookupQ (c ++ [(k, r)]) q = lookupQ c q := by
  induction c with
  | nil => simp [lookupQ, h]
  | cons hd t ih =>
    obtain ⟨k0, r0⟩ := hd
    by_cases hq : k0 = q
    · simp [lookupQ, hq]
    · simp [lookupQ, hq, ih]

/-- Appending an entry under an absent key makes it found. -/
theorem lookupQ_append_self (c : List (String × Row)) (k : String) (r : Row)
    (h : lookupQ c k = none) : lookupQ (c ++ [(k, r)]) k = some r := by
  induction c with
  | nil => simp [lookupQ]
  | cons hd t ih =>
    obtain ⟨k0, r0⟩ := hd
    by_cases hq : k0 = k
    · exfalso
      simp [lookupQ, hq] at h
    · simp only [lookupQ, if_neg hq] at h
      simp only [List.cons_append, lookupQ, if_neg hq]
      exact ih h

/-- Erasure preserves the cache invariant. -/
theorem cacheInv_erase (c : List (String × Row)) (q : String) (h : cacheInv c) :
    cacheInv (eraseQ c q) :=
  ⟨(eraseQ_keys_sublist c q).nodup h.1,
    fun kr hkr => h.2 kr (eraseQ_subset c q kr hkr)⟩

/-- Caching a row under its own absent query name preserves the
cache invariant. -/
theorem cacheInv_append (c : List (String × Row)) (r : Row) (h : cacheInv c)
    (hn : lookupQ c r.qname = none) : cacheInv (c ++ [(r.qname, r)]) := by
  constructor
  · rw [List.map_append]
    refine List.Nodup.append h.1 (by simp) ?_
    intro a ha hb
    simp only [List.map_cons, List.map_nil, List.mem_singleton] at hb
    subst hb
    exact (lookupQ_eq_none c r.qname).mp hn ha
  · intro kr hkr
    rcases List.mem_append.mp hkr with h1 | h1
    · exact h.2 kr h1
    · simp only [List.mem_singleton] at h1
      subst h1
      rfl

/-- Characterization of the matchmaker loop for one fixed query
name: the pairs it yields with that name are exactly the successive
occurrences of the name paired off in arrival order, starting from
whatever occurrence is pending in the cache. -/
theorem matchmakerAux_char (q : String) :
    ∀ (rows : List Row) (cache : List (String × Row)), cacheInv cache →
      (matchmakerAux rows cache).filter (fun pr => pr.1.qname = q)
        = pairConsume (lookupQ cache q) (rows.filter (fun r => r.qname = q)) := by
  intro rows
  induction rows with
  | nil =>
    intro cache _
    simp [matchmakerAux, pairConsume]
  | cons r rs ih =>
    intro cache hinv
    by_cases hq : r.qname = q
    · cases hl : lookupQ cache r.qname with
      | some old =>
        have hold : old.qname = r.qname := hinv.2 (r.qname, old) (lookupQ_mem cache r.qname old hl)
        simp only [matchmakerAux, hl]
        rw [List.filter_cons_of_pos (by simp [hold, hq]),
          List.filter_cons_of_pos (by simp [hq])]
        rw [ih _ (cacheInv_erase cache r.qname hinv)]
        have h1 : lookupQ (eraseQ cache r.qname) q = none := by
          rw [hq]
          exact lookupQ_eraseQ_self cache q hinv.1
        have h2 : lookupQ cache q = some old := by
          rw [← hq]
          exact hl
        rw [h1, h2]
        simp only [pairConsume]
      | none =>
        simp only [matchmakerAux, hl]
        rw [ih _ (cacheInv_append cache r hinv hl)]
        have h1 : lookupQ (cache ++ [(r.qname, r)]) q = some r := by
          rw [← hq]
          exact lookupQ_append_self cache r.qname r hl
        have h2 : lookupQ cache q = none := by
          rw [← hq]
          exact hl
        rw [h1, List.filter_cons_of_pos (by simp [hq]), h2]
        simp only [pairConsume]
    · cases hl : lookupQ cache r.qname with
      | some old =>
        have hold : old.qname = r.qname := hinv.2 (r.qname, old) (lookupQ_mem cache r.qname old hl)
        simp only [matchmakerAux, hl]
        rw [List.filter_cons_of_neg (by simp [hold, hq]),
          List.filter_cons_of_neg (by simp [hq])]
        rw [ih _ (cacheInv_erase cache r.qname hinv)]
        rw [lookupQ_eraseQ_ne cache r.qname q hq]
      | none =>
        simp only [matchmakerAux, hl]
        rw [ih _ (cacheInv_append cache r hinv hl)]
        rw [lookupQ_append_ne cache r.qname q r hq]
        rw [List.filter_cons_of_neg (by simp [hq])]

/-- Length of the paired-off list: half the occurrences, the pending
slot counting as one extra occurrence; a trailing unmatched
occurrence is dropped by the integer division. -/
theorem pairConsume_length :
    ∀ (l : List Row) (pend : Option Row),
    (pairConsume pend l).length = (l.length + (if pend.isSome then 1 else 0)) / 2 := by
  intro l
  induction l with
  | nil =>
    intro pend
    cases pend <;> simp [pairConsume]
  | cons r rs ih =>
    intro pend
    cases pend with
    | none =>
      simp only [pairConsume, List.length_cons]
      rw [ih]
      simp
    | some p =>
      simp only [pairConsume, List.length_cons]
      rw [ih]
      simp
      omega

/-- Every pair produced by pairing off a list of rows sharing one
query name has that name on both components. -/
theorem pairConsume_qnames (q : String) :
    ∀ (l : List Row) (pend : Option Row),
    (∀ x ∈ l, x.qname = q) → (∀ p, pend = some p → p.qname = q) →
    ∀ pr ∈ pairConsume pend l, pr.1.qname = q ∧ pr.2.qname = q := by
  intro l
  induction l with
  | nil =>
    intro pend _ _ pr hpr
    simp [pairConsume] at hpr
  | cons r rs ih =>
    intro pend hall hpend pr hpr
    cases pend with
    | none =>
      simp only [pairConsume] at hpr
      exact ih (some r) (fun x hx => hall x (by simp [hx]))
        (fun p hp => by cases hp; exact hall r (by simp)) pr hpr
    | some p0 =>
      simp only [pairConsume] at hpr
      rcases List.mem_cons.mp hpr with h | h
      · cases h
        exact ⟨hpend p0 rfl, hall r (by simp)⟩
      · exact ih none (fun x hx => hall x (by simp [hx])) (by simp) pr h

/-- Claim C8: matchmaker, scanning the stream once in order, pairs
off the successive occurrences of each query name in arrival order as
(pending, current), both components of every yielded pair share their
query name, and a query name occurring exactly once yields no pair:
its residual pending record is discarded at end of stream. -/
theorem c8_matchmaker_pairs (rows : List Row) (q : String) :
    ((matchmaker rows).filter (fun pr => pr.1.qname = q)
        = pairConsume none (rows.filter (fun r => r.qname = q))) ∧
    (∀ pr ∈ matchmaker rows, pr.1.qname = pr.2.qname) ∧
    ((rows.filter (fun r => r.qname = q)).length = 1 →
      (matchmaker rows).filter (fun pr => pr.1.qname = q) = []) := by
  have hchar : ∀ q2 : String, (matchmaker rows).filter (fun pr => pr.1.qname = q2)
      = pairConsume none (rows.filter (fun r => r.qname = q2)) := by
    intro q2
    have h := matchmakerAux_char q2 rows [] ⟨List.nodup_nil, by simp⟩
    simpa [matchmaker, lookupQ] using h
  refine ⟨hchar q, ?_, ?_⟩
  · intro pr hpr
    have hmem : pr ∈ (matchmaker rows).filter (fun pr2 => pr2.1.qname = pr.1.qname) := by
      simp [List.mem_filter, hpr]
    rw [hchar pr.1.qname] at hmem
    have hq := pairConsume_qnames pr.1.qname (rows.filter (fun r => r.qname = pr.1.qname)) none
      (fun x hx => by simpa using (List.mem_filter.mp hx).2) (by simp) pr hmem
    exact hq.2.symm
  · intro hlen
    rw [hchar q]
    have hl := pairConsume_length (rows.filter (fun r => r.qname = q)) none
    rw [hlen] at hl
    simp only [Option.isSome_none, Bool.false_eq_true, if_false, Nat.add_zero] at hl
    have : (pairConsume none (rows.filter (fun r => r.qname = q))).length = 0 := by
      rw [hl]
    exact List.eq_nil_of_length_eq_zero this

/-- Witness for claim C8: a single unmatched record yields no
pair. -/
theorem c8_witness :
    (matchmaker [⟨"a", 0, [], [], []⟩]).filter (fun pr => pr.1.qname = "a") = [] :=
  (c8_matchmaker_pairs [⟨"a", 0, [], [], []⟩] "a").2.2 (by decide)

end Minimap2
